import Mathlib

/-!
Shallow embedding of `mm_2019_sss_1/energy.py`.

The `Energy` class holds a reference to a `Geometry` collaborator (particle
coordinates, particle count, cell volume, and a minimum-image squared-distance
operation, all external to the file) together with a `cutoff` and the derived
`cutoff2 = cutoff ** 2`.  Machine floats are modelled as exact rationals for
the pair-energy pipeline and as reals for the tail correction (which uses the
constant `np.pi`).  Python / numpy indexing, which accepts negative indices
`-N <= i < 0` as aliases of `N + i` and raises `IndexError` otherwise, is
modelled by `pyIndex` / `pyGet` / `pyDelete`, with `Option` as the error monad
(`none` = an `IndexError` escaping the call).
-/

/-- A particle position: a 3-component vector, as a rational triple. -/
abbrev Point : Type := ℚ × ℚ × ℚ

/-- The external Geometry collaborator: ordered coordinates, particle count,
cell volume and a minimum-image squared-distance operation returning one
squared distance per particle of its second argument. -/
structure Geometry where
  coordinates : List Point
  num_particles : ℕ
  volume : ℚ
  minimum_image_distance : Point → List Point → List ℚ

/-- State of the `Energy` evaluator: the `Geom` reference, `cutoff`, and the
derived field `cutoff2`. -/
structure Energy where
  Geom : Geometry
  cutoff : ℚ
  cutoff2 : ℚ

/-- Constructor `Energy.__init__`: stores `Geom` and `cutoff` and sets
`cutoff2 = cutoff ** 2`.  The source performs no validation of `cutoff`. -/
def Energy.init (Geom : Geometry) (cutoff : ℚ) : Energy :=
  ⟨Geom, cutoff, cutoff ^ 2⟩

/-- Method `Energy.lennard_jones_potential`: `sig_by_r6 = (1/rij2)**3`,
`sig_by_r12 = sig_by_r6**2`, result `4.0 * (sig_by_r12 - sig_by_r6)`. -/
def lennard_jones_potential (rij2 : ℚ) : ℚ :=
  let sig_by_r6 := (1 / rij2) ^ 3
  let sig_by_r12 := sig_by_r6 ^ 2
  4 * (sig_by_r12 - sig_by_r6)

/-- Python sequence-index resolution for a length-`n` sequence: index
`0 <= i < n` is used as is, `-n <= i < 0` means `n + i`, anything else is an
`IndexError` (`none`). -/
def pyIndex (n : ℕ) (i : ℤ) : Option ℕ :=
  if 0 ≤ i ∧ i < (n : ℤ) then some i.toNat
  else if -(n : ℤ) ≤ i ∧ i < 0 then some (i + (n : ℤ)).toNat
  else none

/-- Python indexing `l[i]` with negative-index wrap-around. -/
def pyGet {α : Type} (l : List α) (i : ℤ) : Option α :=
  (pyIndex l.length i).bind fun k => l[k]?

/-- Deletion `np.delete(l, i)` for a single index: removes the entry at resolved
position `i`, raising `IndexError` (`none`) when `i` is out of range. -/
def pyDelete {α : Type} (l : List α) (i : ℤ) : Option (List α) :=
  (pyIndex l.length i).map fun k => l.eraseIdx k

/-- Method `Energy.get_particle_energy`: `r_i = coordinates[i_particle]`;
`rij2 = Geom.minimum_image_distance(r_i, coordinates)`;
`red = np.delete(rij2, i_particle)`;
result `lennard_jones_potential(red[red < cutoff2]).sum()`. -/
def Energy.get_particle_energy (e : Energy) (i_particle : ℤ)
    (coordinates : List Point) : Option ℚ :=
  (pyGet coordinates i_particle).bind fun r_i =>
    let rij2 := e.Geom.minimum_image_distance r_i coordinates
    (pyDelete rij2 i_particle).map fun red =>
      ((red.filter (fun d => d < e.cutoff2)).map lennard_jones_potential).sum

/-- Method `Energy.calculate_total_pair_energy`: starts from `e_total = 0.0`,
adds `get_particle_energy(i, Geom.coordinates)` for
`i in range(len(Geom.coordinates))`, and returns `e_total / 2`. -/
def Energy.calculate_total_pair_energy (e : Energy) : Option ℚ :=
  ((List.range e.Geom.coordinates.length).foldlM
      (fun (e_total : ℚ) (i : ℕ) =>
        (e.get_particle_energy (i : ℤ) e.Geom.coordinates).map
          fun v => e_total + v)
      (0 : ℚ)).map fun e_total => e_total / 2

/-- Method `Energy.calculate_tail_correction`:
`sig_by_cutoff3 = (1.0/cutoff)**3`, `sig_by_cutoff9 = sig_by_cutoff3**3`,
`e_correction = sig_by_cutoff9 - 3.0*sig_by_cutoff3`, then
`e_correction *= 8.0/9.0 * np.pi * num_particles / Geom.volume * num_particles`. -/
noncomputable def Energy.calculate_tail_correction (e : Energy) : ℝ :=
  let num_particles : ℝ := (e.Geom.num_particles : ℝ)
  let sig_by_cutoff3 : ℝ := (1 / (e.cutoff : ℝ)) ^ 3
  let sig_by_cutoff9 : ℝ := sig_by_cutoff3 ^ 3
  let e_correction : ℝ := sig_by_cutoff9 - 3 * sig_by_cutoff3
  e_correction * (8 / 9 * Real.pi * num_particles / (e.Geom.volume : ℝ)
    * num_particles)

/-- The method surface of the evaluator, used to state its frame property. -/
inductive Op where
  | lj : ℚ → Op
  | particleEnergy : ℤ → Op
  | totalPairEnergy : Op
  | tailCorrection : Op

/-- One method call on the evaluator: the result together with the object
state after the call.  None of the method bodies assigns any attribute, so
the state after each call is the state before it. -/
noncomputable def methodCall (e : Energy) : Op → Energy × (Option ℚ ⊕ ℝ)
  | Op.lj r2 => (e, Sum.inl (some (lennard_jones_potential r2)))
  | Op.particleEnergy i => (e, Sum.inl (e.get_particle_energy i e.Geom.coordinates))
  | Op.totalPairEnergy => (e, Sum.inl e.calculate_total_pair_energy)
  | Op.tailCorrection => (e, Sum.inr e.calculate_tail_correction)

/-- Evaluator states reachable from construction by method calls. -/
inductive Reachable : Energy → Prop where
  | init : (g : Geometry) → (c : ℚ) → Reachable (Energy.init g c)
  | step : (e : Energy) → (op : Op) → Reachable e → Reachable (methodCall e op).1

/-! ### Helper lemmas -/

lemma filter_map_sum_eq_sum_range (c : ℚ) (f : ℚ → ℚ) (l : List ℚ) :
    ((l.filter (fun d => d < c)).map f).sum
      = ∑ j in Finset.range l.length,
          (if l.getD j 0 < c then f (l.getD j 0) else 0) := by
  induction l with
  | nil => simp
  | cons x xs ih =>
    rw [List.length_cons, Finset.sum_range_succ']
    simp only [List.getD_cons_succ, List.getD_cons_zero]
    rw [← ih]
    by_cases hx : x < c
    · simp [List.filter_cons, hx, add_comm]
    · simp [List.filter_cons, hx]

lemma eraseIdx_filter_map_sum (c : ℚ) (f : ℚ → ℚ) :
    ∀ (l : List ℚ) (i : ℕ), i < l.length →
    (((l.eraseIdx i).filter (fun d => d < c)).map f).sum
      = ∑ j in (Finset.range l.length).erase i,
          (if l.getD j 0 < c then f (l.getD j 0) else 0) := by
  intro l
  induction l with
  | nil => intro i hi; simp at hi
  | cons x xs ih =>
    intro i hi
    match i with
    | 0 =>
      rw [List.eraseIdx_cons_zero, filter_map_sum_eq_sum_range, List.length_cons,
          Finset.sum_erase_eq_sub (Finset.mem_range.mpr (Nat.succ_pos xs.length)),
          Finset.sum_range_succ']
      simp [List.getD_cons_succ, List.getD_cons_zero]
    | k + 1 =>
      have hk : k < xs.length := by simpa using hi
      rw [List.eraseIdx_cons_succ]
      have hsum := ih k hk
      rw [Finset.sum_erase_eq_sub (Finset.mem_range.mpr hk)] at hsum
      rw [List.length_cons,
          Finset.sum_erase_eq_sub (Finset.mem_range.mpr (Nat.succ_lt_succ hk)),
          Finset.sum_range_succ']
      simp only [List.getD_cons_succ, List.getD_cons_zero]
      by_cases hx : x < c
      · simp [List.filter_cons, hx, hsum]
        ring
      · simp [List.filter_cons, hx, hsum]

lemma pyIndex_ofNat (n i : ℕ) (h : i < n) : pyIndex n (i : ℤ) = some i := by
  unfold pyIndex
  have hyes : 0 ≤ (i : ℤ) ∧ (i : ℤ) < (n : ℤ) := by omega
  rw [if_pos hyes]
  simp

lemma pyIndex_neg (n k : ℕ) (h1 : 1 ≤ k) (h2 : k ≤ n) :
    pyIndex n (-(k : ℤ)) = some (n - k) := by
  unfold pyIndex
  have hnot : ¬ (0 ≤ -(k : ℤ) ∧ -(k : ℤ) < (n : ℤ)) := by omega
  have hyes : -(n : ℤ) ≤ -(k : ℤ) ∧ -(k : ℤ) < 0 := by omega
  rw [if_neg hnot, if_pos hyes]
  congr 1
  omega

lemma pyIndex_out_of_range (n : ℕ) (i : ℤ)
    (h : (n : ℤ) ≤ i ∨ i < -(n : ℤ)) : pyIndex n i = none := by
  unfold pyIndex
  rw [if_neg (by omega), if_neg (by omega)]

lemma pyGet_ofNat {α : Type} [Inhabited α] (l : List α) (i : ℕ)
    (h : i < l.length) : pyGet l (i : ℤ) = some (l.getD i default) := by
  simp [pyGet, pyIndex_ofNat _ _ h, List.getElem?_eq_getElem h,
    List.getD_eq_getElem _ _ h]

/-- For a valid non-negative index `i`, when the distance vector has the
stated length `N`, `get_particle_energy` succeeds and is the
cutoff-filtered Lennard-Jones sum over the other particle indices. -/
lemma get_particle_energy_eq (e : Energy) (coordinates : List Point) (i : ℕ)
    (hi : i < coordinates.length)
    (hmid : (e.Geom.minimum_image_distance (coordinates.getD i default)
        coordinates).length = coordinates.length) :
    e.get_particle_energy (i : ℤ) coordinates
      = some (∑ j in (Finset.range coordinates.length).erase i,
          (if (e.Geom.minimum_image_distance (coordinates.getD i default)
                coordinates).getD j 0 < e.cutoff2
           then lennard_jones_potential
              ((e.Geom.minimum_image_distance (coordinates.getD i default)
                coordinates).getD j 0)
           else 0)) := by
  have hi' : i < (e.Geom.minimum_image_distance (coordinates.getD i default)
      coordinates).length := by rw [hmid]; exact hi
  rw [Energy.get_particle_energy, pyGet_ofNat _ _ hi]
  simp only [Option.some_bind, pyDelete, pyIndex_ofNat _ _ hi',
    Option.map_some']
  rw [eraseIdx_filter_map_sum _ _ _ _ hi', hmid]

lemma foldlM_range_all_some (g : ℕ → Option ℚ) (f : ℕ → ℚ) :
    ∀ (n : ℕ) (acc : ℚ), (∀ i, i < n → g i = some (f i)) →
      (List.range n).foldlM (fun e_total i => (g i).map fun v => e_total + v)
          acc
        = some (acc + ∑ j in Finset.range n, f j) := by
  intro n
  induction n with
  | zero => intro acc h; simp
  | succ m ih =>
    intro acc h
    rw [List.range_succ, List.foldlM_append,
        ih acc fun i hi => h i (Nat.lt_succ_of_lt hi)]
    simp [List.foldlM_cons, List.foldlM_nil, h m (Nat.lt_succ_self m),
      Finset.sum_range_succ, add_assoc]

lemma calculate_total_pair_energy_eq (e : Energy) (f : ℕ → ℚ)
    (h : ∀ i : ℕ, i < e.Geom.coordinates.length →
        e.get_particle_energy (i : ℤ) e.Geom.coordinates = some (f i)) :
    e.calculate_total_pair_energy
      = some ((∑ i in Finset.range e.Geom.coordinates.length, f i) / 2) := by
  rw [Energy.calculate_total_pair_energy,
      foldlM_range_all_some
        (fun i => e.get_particle_energy (i : ℤ) e.Geom.coordinates) f
        e.Geom.coordinates.length 0 h]
  simp

/-! ### Concrete configurations for witnesses -/

/-- Squared Euclidean distance of two points: a concrete instance of the
external minimum-image squared-distance operation for witness
configurations (no periodic wrap is needed at the chosen coordinates). -/
def sqDist (p q : Point) : ℚ :=
  (p.1 - q.1) ^ 2 + (p.2.1 - q.2.1) ^ 2 + (p.2.2 - q.2.2) ^ 2

/-- One squared distance per particle of the coordinate list. -/
def euclidMid (p : Point) (cs : List Point) : List ℚ :=
  cs.map (sqDist p)

/-- A geometry with the Euclidean squared-distance operation. -/
def euclidGeom (cs : List Point) (n : ℕ) (v : ℚ) : Geometry :=
  ⟨cs, n, v, euclidMid⟩

/-- Two particles at separation `2`, cutoff `3`: the pair interacts. -/
def eClose : Energy :=
  Energy.init (euclidGeom [(0, 0, 0), (2, 0, 0)] 2 1) 3

/-- Two particles at separation `5`, cutoff `1`: no pair interacts. -/
def eFar : Energy :=
  Energy.init (euclidGeom [(0, 0, 0), (5, 0, 0)] 2 1) 1

/-- As `eFar` but with the cell volume doubled. -/
def eFarDoubled : Energy :=
  Energy.init (euclidGeom [(0, 0, 0), (5, 0, 0)] 2 2) 1

/-- The empty configuration. -/
def eEmpty : Energy :=
  Energy.init (euclidGeom [] 0 1) 3

/-! ### Claims -/

/-- Claim C3: for every squared separation `r2 > 0`,
`lennard_jones_potential(r2)` equals `4*((1/r2)^6 - (1/r2)^3)`; in
particular `lennard_jones_potential(1) = 0`. -/
theorem claim3_lennard_jones_formula (r2 : ℚ) (h : 0 < r2) :
    lennard_jones_potential r2 = 4 * ((1 / r2) ^ 6 - (1 / r2) ^ 3)
      ∧ lennard_jones_potential 1 = 0 := by
  constructor
  · unfold lennard_jones_potential
    ring
  · unfold lennard_jones_potential
    norm_num

/-- Witness for C3 at the concrete squared separation `r2 = 4`. -/
theorem claim3_lennard_jones_formula_witness :
    (0 : ℚ) < 4
      ∧ (lennard_jones_potential 4 = 4 * ((1 / 4) ^ 6 - (1 / 4) ^ 3)
          ∧ lennard_jones_potential 1 = 0) :=
  ⟨by norm_num, claim3_lennard_jones_formula 4 (by norm_num)⟩

/-- Claim C5 counterexample: constructing the evaluator with the
non-positive cutoff `-1` does not fail; `__init__` has no validation and
yields an initialised evaluator with `cutoff = -1` and `cutoff2 = 1`. -/
theorem claim5_counterexample :
    (Energy.init (euclidGeom [] 0 1) (-1)).cutoff = -1
      ∧ (Energy.init (euclidGeom [] 0 1) (-1)).cutoff2 = 1 := by
  refine ⟨rfl, ?_⟩
  show ((-1 : ℚ)) ^ 2 = 1
  norm_num

/-- Claim C5 amended: construction performs no validation of the cutoff;
any cutoff, including a non-positive one, is accepted, the geometry and
cutoff are stored as given and `cutoff2 = cutoff ^ 2`. -/
theorem claim5_amended_no_validation (g : Geometry) (c : ℚ) (h : c ≤ 0) :
    (Energy.init g c).Geom = g ∧ (Energy.init g c).cutoff = c
      ∧ (Energy.init g c).cutoff2 = c ^ 2 :=
  ⟨rfl, rfl, rfl⟩

/-- Witness for the amended C5 at the concrete cutoff `-2`. -/
theorem claim5_amended_no_validation_witness :
    (-2 : ℚ) ≤ 0
      ∧ ((Energy.init (euclidGeom [] 0 1) (-2)).Geom = euclidGeom [] 0 1
          ∧ (Energy.init (euclidGeom [] 0 1) (-2)).cutoff = -2
          ∧ (Energy.init (euclidGeom [] 0 1) (-2)).cutoff2 = (-2 : ℚ) ^ 2) :=
  ⟨by norm_num, claim5_amended_no_validation (euclidGeom [] 0 1) (-2) (by norm_num)⟩

/-- Claim C6 counterexample: at the two-particle configuration `eClose`,
the negative index `-1` does not raise `IndexError`: numpy interprets it
as the last particle and the call returns its energy, `-63/1024`. -/
theorem claim6_counterexample :
    eClose.get_particle_energy (-1) eClose.Geom.coordinates
      = some (-63 / 1024) := by
  norm_num [eClose, euclidGeom, euclidMid, sqDist, Energy.init,
    Energy.get_particle_energy, pyGet, pyDelete, pyIndex,
    lennard_jones_potential]

/-- Claim C6 amended: `get_particle_energy(i)` raises `IndexError` exactly
for `i` outside numpy's accepted range `[-N, N)`: every `i >= N` and every
`i < -N` raises, while `-N <= i < 0` is interpreted as `N + i`. -/
theorem claim6_amended_out_of_range (e : Energy) (i : ℤ)
    (coords : List Point)
    (h : (coords.length : ℤ) ≤ i ∨ i < -(coords.length : ℤ)) :
    e.get_particle_energy i coords = none := by
  unfold Energy.get_particle_energy pyGet
  rw [pyIndex_out_of_range _ _ h]
  rfl

/-- Witness for the amended C6 at the concrete index `5` on a two-particle
configuration. -/
theorem claim6_amended_out_of_range_witness :
    ((eClose.Geom.coordinates.length : ℤ) ≤ 5
        ∨ (5 : ℤ) < -(eClose.Geom.coordinates.length : ℤ))
      ∧ eClose.get_particle_energy 5 eClose.Geom.coordinates = none :=
  ⟨Or.inl (by decide),
    claim6_amended_out_of_range eClose 5 eClose.Geom.coordinates
      (Or.inl (by decide))⟩

/-- Claim C1: for a particle index `i` in `[0, N)` and a coordinate set of
`N` particles whose distance operation returns one squared distance per
particle, `get_particle_energy` returns the sum of the Lennard-Jones
potential over exactly those other indices `j` whose squared minimum-image
distance to `i` is strictly below `cutoff2`; the self-entry at index `i` is
removed from the length-`N` squared-distance sequence before filtering. -/
theorem claim1_particle_energy_filtered_sum (e : Energy)
    (coordinates : List Point) (i : ℕ) (hi : i < coordinates.length)
    (hmid : (e.Geom.minimum_image_distance (coordinates.getD i default)
        coordinates).length = coordinates.length) :
    e.get_particle_energy (i : ℤ) coordinates
      = some (∑ j in (Finset.range coordinates.length).erase i,
          (if (e.Geom.minimum_image_distance (coordinates.getD i default)
                coordinates).getD j 0 < e.cutoff2
           then lennard_jones_potential
              ((e.Geom.minimum_image_distance (coordinates.getD i default)
                coordinates).getD j 0)
           else 0)) :=
  get_particle_energy_eq e coordinates i hi hmid

/-- Witness for C1 at the two-particle configuration `eClose`, index `0`. -/
theorem claim1_particle_energy_filtered_sum_witness :
    0 < eClose.Geom.coordinates.length
      ∧ eClose.get_particle_energy ((0 : ℕ) : ℤ) eClose.Geom.coordinates
        = some (∑ j in (Finset.range eClose.Geom.coordinates.length).erase 0,
            (if (eClose.Geom.minimum_image_distance
                  (eClose.Geom.coordinates.getD 0 default)
                  eClose.Geom.coordinates).getD j 0 < eClose.cutoff2
             then lennard_jones_potential
                ((eClose.Geom.minimum_image_distance
                  (eClose.Geom.coordinates.getD 0 default)
                  eClose.Geom.coordinates).getD j 0)
             else 0)) :=
  ⟨by decide,
    claim1_particle_energy_filtered_sum eClose eClose.Geom.coordinates 0
      (by decide) rfl⟩

/-- Claim C2: the total pair energy is the sum of the per-particle energies
over all indices `0 .. N-1`, divided by `2`; in particular it is `0` when
there are no particles. -/
theorem claim2_total_energy_half_sum (e : Energy) (f : ℕ → ℚ)
    (h : ∀ i : ℕ, i < e.Geom.coordinates.length →
        e.get_particle_energy (i : ℤ) e.Geom.coordinates = some (f i)) :
    e.calculate_total_pair_energy
        = some ((∑ i in Finset.range e.Geom.coordinates.length, f i) / 2)
      ∧ (e.Geom.coordinates = [] → e.calculate_total_pair_energy = some 0) := by
  refine ⟨calculate_total_pair_energy_eq e f h, fun hnil => ?_⟩
  rw [calculate_total_pair_energy_eq e f h]
  simp [hnil]

/-- Witness for C2 at the two-particle configuration `eClose`, where each
per-particle energy is `-63/1024`. -/
theorem claim2_total_energy_half_sum_witness :
    (∀ i : ℕ, i < eClose.Geom.coordinates.length →
        eClose.get_particle_energy (i : ℤ) eClose.Geom.coordinates
          = some ((-63 : ℚ) / 1024))
      ∧ (eClose.calculate_total_pair_energy
          = some ((∑ i in Finset.range eClose.Geom.coordinates.length,
              (-63 : ℚ) / 1024) / 2)
        ∧ (eClose.Geom.coordinates = []
            → eClose.calculate_total_pair_energy = some 0)) := by
  have h : ∀ i : ℕ, i < eClose.Geom.coordinates.length →
      eClose.get_particle_energy (i : ℤ) eClose.Geom.coordinates
        = some ((-63 : ℚ) / 1024) := by
    intro i hi
    have hi2 : i < 2 := by simpa [eClose, Energy.init, euclidGeom] using hi
    match i, hi2 with
    | 0, _ =>
      norm_num [eClose, euclidGeom, euclidMid, sqDist, Energy.init,
        Energy.get_particle_energy, pyGet, pyDelete, pyIndex,
        lennard_jones_potential]
    | 1, _ =>
      norm_num [eClose, euclidGeom, euclidMid, sqDist, Energy.init,
        Energy.get_particle_energy, pyGet, pyDelete, pyIndex,
        lennard_jones_potential]
  exact ⟨h, claim2_total_energy_half_sum eClose (fun _ => (-63 : ℚ) / 1024) h⟩

/-- Claim C4: the tail correction equals
`(8/9)*pi*(N/V)*N*((1/cutoff)^9 - 3*(1/cutoff)^3)` and depends only on the
particle count, the volume and the cutoff, not on the coordinates. -/
theorem claim4_tail_correction_formula (e eOther : Energy)
    (hN : eOther.Geom.num_particles = e.Geom.num_particles)
    (hV : eOther.Geom.volume = e.Geom.volume)
    (hc : eOther.cutoff = e.cutoff) :
    e.calculate_tail_correction
        = 8 / 9 * Real.pi
            * ((e.Geom.num_particles : ℝ) / (e.Geom.volume : ℝ))
            * (e.Geom.num_particles : ℝ)
            * ((1 / (e.cutoff : ℝ)) ^ 9 - 3 * (1 / (e.cutoff : ℝ)) ^ 3)
      ∧ eOther.calculate_tail_correction = e.calculate_tail_correction := by
  constructor
  · unfold Energy.calculate_tail_correction
    ring
  · unfold Energy.calculate_tail_correction
    rw [hN, hV, hc]

/-- Witness for C4 at the configuration `eClose` twice (its coordinates are
trivially irrelevant to the correction). -/
theorem claim4_tail_correction_formula_witness :
    eClose.calculate_tail_correction
        = 8 / 9 * Real.pi
            * ((eClose.Geom.num_particles : ℝ) / (eClose.Geom.volume : ℝ))
            * (eClose.Geom.num_particles : ℝ)
            * ((1 / (eClose.cutoff : ℝ)) ^ 9
                - 3 * (1 / (eClose.cutoff : ℝ)) ^ 3)
      ∧ eClose.calculate_tail_correction = eClose.calculate_tail_correction :=
  claim4_tail_correction_formula eClose eClose rfl rfl rfl

/-- Claim C8: the tail correction is invariant under permutation of the
particle order; doubling the volume at fixed count and cutoff halves it;
and with zero particles it is zero. -/
theorem claim8_tail_correction_relations (e eP eV : Energy)
    (hPperm : eP.Geom.coordinates.Perm e.Geom.coordinates)
    (hPN : eP.Geom.num_particles = e.Geom.num_particles)
    (hPV : eP.Geom.volume = e.Geom.volume)
    (hPc : eP.cutoff = e.cutoff)
    (hVN : eV.Geom.num_particles = e.Geom.num_particles)
    (hVV : eV.Geom.volume = 2 * e.Geom.volume)
    (hVc : eV.cutoff = e.cutoff) :
    eP.calculate_tail_correction = e.calculate_tail_correction
      ∧ eV.calculate_tail_correction = e.calculate_tail_correction / 2
      ∧ (e.Geom.num_particles = 0 → e.calculate_tail_correction = 0) := by
  unfold Energy.calculate_tail_correction
  refine ⟨by rw [hPN, hPV, hPc], ?_, ?_⟩
  · rw [hVN, hVV, hVc]
    push_cast
    simp only [div_eq_mul_inv, mul_inv]
    ring
  · intro h0
    rw [h0]
    push_cast
    ring

/-- Witness for C8: `eFar` against itself (the identity permutation) and
against `eFarDoubled`, whose volume is doubled. -/
theorem claim8_tail_correction_relations_witness :
    eFar.calculate_tail_correction = eFar.calculate_tail_correction
      ∧ eFarDoubled.calculate_tail_correction
          = eFar.calculate_tail_correction / 2
      ∧ (eFar.Geom.num_particles = 0
          → eFar.calculate_tail_correction = 0) :=
  claim8_tail_correction_relations eFar eFar eFarDoubled
    (List.Perm.refl _) rfl rfl rfl rfl (by norm_num [eFarDoubled, eFar,
      Energy.init, euclidGeom]) rfl

/-- Claim C9: no evaluator method mutates the evaluator state (hence none
mutates the particle coordinates), and in every reachable state the
invariant `cutoff2 = cutoff * cutoff` established at construction holds. -/
theorem claim9_evaluator_immutable (e : Energy) (op : Op)
    (hr : Reachable e) :
    (methodCall e op).1 = e
      ∧ (methodCall e op).1.Geom.coordinates = e.Geom.coordinates
      ∧ e.cutoff2 = e.cutoff * e.cutoff := by
  have hstate : ∀ (eS : Energy) (opS : Op), (methodCall eS opS).1 = eS := by
    intro eS opS
    cases opS <;> rfl
  refine ⟨hstate e op, by rw [hstate e op], ?_⟩
  induction hr with
  | init g c => show c ^ 2 = c * c; ring
  | step eS opS hS ih => rw [hstate eS opS]; exact ih

/-- Witness for C9 at the freshly constructed state `eClose` and the
total-energy method. -/
theorem claim9_evaluator_immutable_witness :
    (methodCall eClose Op.totalPairEnergy).1 = eClose
      ∧ (methodCall eClose Op.totalPairEnergy).1.Geom.coordinates
          = eClose.Geom.coordinates
      ∧ eClose.cutoff2 = eClose.cutoff * eClose.cutoff :=
  claim9_evaluator_immutable eClose Op.totalPairEnergy
    (Reachable.init (euclidGeom [(0, 0, 0), (2, 0, 0)] 2 1) 3)

/-- Claim C7: when every pairwise squared minimum-image distance between
distinct particles is at least `cutoff2`, the cutoff filter retains
nothing: every per-particle energy is `0` (the sum over the empty set) and
the total pair energy is `0`. -/
theorem claim7_no_interaction_beyond_cutoff (e : Energy)
    (hN : 2 ≤ e.Geom.coordinates.length)
    (hlen : ∀ p, (e.Geom.minimum_image_distance p e.Geom.coordinates).length
        = e.Geom.coordinates.length)
    (hfar : ∀ i : ℕ, i < e.Geom.coordinates.length →
        ∀ j : ℕ, j < e.Geom.coordinates.length → j ≠ i →
        e.cutoff2 ≤ (e.Geom.minimum_image_distance
            (e.Geom.coordinates.getD i default)
            e.Geom.coordinates).getD j 0) :
    e.calculate_total_pair_energy = some 0
      ∧ ∀ i : ℕ, i < e.Geom.coordinates.length →
          e.get_particle_energy (i : ℤ) e.Geom.coordinates = some 0 := by
  have hgpe : ∀ i : ℕ, i < e.Geom.coordinates.length →
      e.get_particle_energy (i : ℤ) e.Geom.coordinates = some 0 := by
    intro i hi
    rw [get_particle_energy_eq e _ i hi (hlen _)]
    congr 1
    refine Finset.sum_eq_zero ?_
    intro j hj
    exact if_neg (not_lt.mpr (hfar i hi j
      (Finset.mem_range.mp (Finset.mem_of_mem_erase hj))
      (Finset.ne_of_mem_erase hj)))
  refine ⟨?_, hgpe⟩
  rw [calculate_total_pair_energy_eq e (fun _ => 0) hgpe]
  simp

/-- Witness for C7 at `eFar`: two particles at squared distance `25` with
`cutoff2 = 1`. -/
theorem claim7_no_interaction_beyond_cutoff_witness :
    2 ≤ eFar.Geom.coordinates.length
      ∧ (eFar.calculate_total_pair_energy = some 0
          ∧ ∀ i : ℕ, i < eFar.Geom.coordinates.length →
              eFar.get_particle_energy (i : ℤ) eFar.Geom.coordinates
                = some 0) := by
  have hfar : ∀ i : ℕ, i < eFar.Geom.coordinates.length →
      ∀ j : ℕ, j < eFar.Geom.coordinates.length → j ≠ i →
      eFar.cutoff2 ≤ (eFar.Geom.minimum_image_distance
          (eFar.Geom.coordinates.getD i default)
          eFar.Geom.coordinates).getD j 0 := by
    intro i hi j hj hne
    have hi2 : i < 2 := by simpa [eFar, Energy.init, euclidGeom] using hi
    have hj2 : j < 2 := by simpa [eFar, Energy.init, euclidGeom] using hj
    match i, hi2, j, hj2 with
    | 0, _, 0, _ => exact absurd rfl hne
    | 0, _, 1, _ =>
      norm_num [eFar, Energy.init, euclidGeom, euclidMid, sqDist, List.getD]
    | 1, _, 0, _ =>
      norm_num [eFar, Energy.init, euclidGeom, euclidMid, sqDist, List.getD]
    | 1, _, 1, _ => exact absurd rfl hne
  exact ⟨by decide,
    claim7_no_interaction_beyond_cutoff eFar (by decide) (fun p => rfl) hfar⟩

/-- The function `get_particle_energy` depends on its index argument only through the
resolved position, when the distance vectors have the coordinate length. -/
lemma get_particle_energy_index_congr (e : Energy) (coords : List Point)
    (i i' : ℤ) (hii : pyIndex coords.length i = pyIndex coords.length i')
    (hlen : ∀ p, (e.Geom.minimum_image_distance p coords).length
        = coords.length) :
    e.get_particle_energy i coords = e.get_particle_energy i' coords := by
  unfold Energy.get_particle_energy pyGet pyDelete
  simp only [hlen, hii]

/-- Claim C10: for `1 <= k <= N`, the negative index `-k` does not raise:
both the coordinate lookup and the self-entry deletion resolve it to the
position `N - k`, so the call agrees with `get_particle_energy(N - k)`. -/
theorem claim10_negative_index_alias (e : Energy) (coords : List Point)
    (k : ℕ) (h1 : 1 ≤ k) (h2 : k ≤ coords.length)
    (hlen : ∀ p, (e.Geom.minimum_image_distance p coords).length
        = coords.length) :
    e.get_particle_energy (-(k : ℤ)) coords ≠ none
      ∧ e.get_particle_energy (-(k : ℤ)) coords
          = e.get_particle_energy ((coords.length : ℤ) - (k : ℤ)) coords := by
  have hnk : coords.length - k < coords.length := by omega
  have hcast : ((coords.length - k : ℕ) : ℤ)
      = (coords.length : ℤ) - (k : ℤ) := by omega
  have hii : pyIndex coords.length (-(k : ℤ))
      = pyIndex coords.length ((coords.length : ℤ) - (k : ℤ)) := by
    rw [pyIndex_neg _ _ h1 h2, ← hcast, pyIndex_ofNat _ _ hnk]
  constructor
  · unfold Energy.get_particle_energy pyGet pyDelete
    rw [pyIndex_neg _ _ h1 h2]
    simp only [Option.some_bind]
    rw [List.getElem?_eq_getElem hnk]
    simp only [Option.some_bind, hlen, pyIndex_neg _ _ h1 h2,
      Option.map_some']
    exact Option.some_ne_none _
  · exact get_particle_energy_index_congr e coords _ _ hii hlen

/-- Witness for C10 at `eClose` with `k = 1`: index `-1` aliases index `1`. -/
theorem claim10_negative_index_alias_witness :
    (1 ≤ 1 ∧ 1 ≤ eClose.Geom.coordinates.length)
      ∧ (eClose.get_particle_energy (-((1 : ℕ) : ℤ)) eClose.Geom.coordinates
            ≠ none
          ∧ eClose.get_particle_energy (-((1 : ℕ) : ℤ))
                eClose.Geom.coordinates
              = eClose.get_particle_energy
                  ((eClose.Geom.coordinates.length : ℤ) - ((1 : ℕ) : ℤ))
                  eClose.Geom.coordinates) :=
  ⟨⟨le_refl 1, by decide⟩,
    claim10_negative_index_alias eClose eClose.Geom.coordinates 1
      (le_refl 1) (by decide) (fun p => rfl)⟩
